import Mathlib

/-!
# Verification of `ip2as.py`

A shallow embedding of the core of the `ip2as` repository (`src/ip2as.py`):
the numeric AS-validity predicate, the multi-origin AS disambiguation
heuristic (`determine_bgp`), the layered table construction (`create_table`)
and the two-format input reader (`read_prefixes`).

Python strings are modelled as `List Char` (`Str`), Python `int` values as
`Int`, and fallible operations (statements whose Python counterpart can raise
`ValueError`/`IndexError`) as `Option`-valued functions where `none` models
the raised exception.

External collaborators (the `traceutils` library) are modelled from the
contracts stated in the specification; each such definition carries a
doc comment starting with `Modelled from the spec:`.
-/

set_option autoImplicit false

namespace Ip2as

/-- Python strings are sequences of characters. -/
abbrev Str := List Char

/-! ## String primitives (models of Python `str` methods and `int()`) -/

/-- Model of Python `str.split` against a character predicate, keeping empty
pieces: splitting `"a__b"` on `'_'` yields `["a", "", "b"]`. With a
one-character separator predicate this is exactly Python's `s.split(sep)`. -/
def splitOnPred (p : Char → Bool) : List Char → List (List Char)
  | [] => [[]]
  | c :: rest =>
    match splitOnPred p rest with
    | [] => if p c then [[], []] else [[c]]
    | g :: gs => if p c then [] :: g :: gs else (c :: g) :: gs

/-- Model of Python `s.split(sep)` for a one-character separator. -/
def splitOnChar (sep : Char) (s : Str) : List Str :=
  splitOnPred (fun c => c == sep) s

/-- Model of Python `s.split()` (no argument): split on whitespace runs and
drop empty pieces. -/
def words (s : Str) : List Str :=
  (splitOnPred Char.isWhitespace s).filter (fun g => !g.isEmpty)

/-- Numeric value of a decimal digit character, `none` on a non-digit. -/
def digitVal (c : Char) : Option Nat :=
  if '0' ≤ c ∧ c ≤ '9' then some (c.toNat - '0'.toNat) else none

/-- Decimal value of a digit string; `none` when empty or containing a
non-digit (Python `int()` raises `ValueError` there). -/
def natOfChars (cs : List Char) : Option Nat :=
  match cs with
  | [] => none
  | _ => cs.foldlM (fun acc c => (digitVal c).map (fun d => 10 * acc + d)) 0

/-- Model of Python `int(s)` on a (possibly `-`-signed) decimal string. -/
def intOfChars (cs : List Char) : Option Int :=
  match cs with
  | '-' :: rest => (natOfChars rest).map (fun n => -(n : Int))
  | _ => (natOfChars cs).map (fun n => (n : Int))

/-- Decimal digit character for a value below ten. -/
def digitChar (n : Nat) : Char := Char.ofNat ('0'.toNat + n)

/-- Auxiliary digit accumulator for `natToChars`, with explicit fuel. -/
def natToCharsAux : Nat → Nat → List Char → List Char
  | 0, _, acc => acc
  | fuel + 1, n, acc =>
    if n < 10 then digitChar n :: acc
    else natToCharsAux fuel (n / 10) (digitChar (n % 10) :: acc)

/-- Model of Python `str(n)` for a natural number. -/
def natToChars (n : Nat) : List Char := natToCharsAux (n + 1) n []

/-- Model of Python `str(i)` for an integer. -/
def intToChars (i : Int) : List Char :=
  if i < 0 then '-' :: natToChars i.natAbs else natToChars i.toNat

/-- Model of Python `sep.join(pieces)` for a one-character separator. -/
def joinSep (sep : Char) : List Str → Str
  | [] => []
  | [g] => g
  | g :: gs => g ++ sep :: joinSep sep gs


/-- Option-valued list traversal: apply `f` to every element, failing when
any application fails (models a Python comprehension over a fallible map). -/
def optMap {α β : Type} (f : α → Option β) : List α → Option (List β)
  | [] => some []
  | a :: l => (f a).bind (fun b => (optMap f l).map (fun bs => b :: bs))

/-! ## `valid` (src/ip2as.py lines 13-14)

```python
def valid(asn):
    return asn != 23456 and 0 < asn < 64496 or 131071 < asn < 4200000000
```

Python's `and` binds tighter than `or`. -/

/-- Embedding of `valid` from `src/ip2as.py`. -/
def valid (asn : Int) : Bool :=
  (asn != 23456 && decide (0 < asn) && decide (asn < 64496))
    || (decide (131071 < asn) && decide (asn < 4200000000))

/-! ## External collaborators: BGP data and `max_num` -/

/-- Modelled from the spec: the BGP/cone collaborator (`traceutils.bgp.bgp.BGP`)
provides, for each AS, its customer cone (a set of AS numbers, here a
membership list) and a precomputed cone size; both are read-only during
table construction. -/
structure BGP where
  cone : Int → List Int
  conesize : Int → Nat

/-- Maximum of a list of integers, `none` on the empty list. -/
def listMaxInt : List Int → Option Int
  | [] => none
  | x :: xs =>
    match listMaxInt xs with
    | none => some x
    | some m => some (max x m)

/-- Modelled from the spec: `max_num` lives in the external utility library
(`traceutils.utils.utils`), not in this repository. Per its name and its use
at `src/ip2as.py` line 51-53 (`mins = max_num(asns, key=...)`, then
`if mins: return mins[0]`), it returns the list of all items of the input
attaining the maximum key value, in input order (empty only for empty
input, matching the spec's "if rule 5 yields no candidate" fallback). -/
def max_num {α : Type} (l : List α) (key : α → Int) : List α :=
  match listMaxInt (l.map key) with
  | none => []
  | some m => l.filter (fun x => key x == m)

/-! ## `determine_bgp` (src/ip2as.py lines 35-54)

```python
def determine_bgp(asn_s, as2org: AS2Org, bgp: BGP):
    asns = []
    for asn in asn_s.split('_'):
        if asn[0] == '{':
            for asn in asn[1:-1].split(','):
                asns.append(int(asn))
        else:
            asns.append(int(asn))
    if len(asns) == 1:
        return asns[0]
    orgs = {as2org[asn] for asn in asns}
    if len(orgs) == 1:
        return asns[0]
    for asn in asns:
        if all(asn in bgp.cone[other] for other in asns if other != asn):
            return asn
    mins = max_num(asns, key=lambda x: -bgp.conesize[x])
    if mins:
        return mins[0]
    return asns[0]
```

The organization mapping `AS2Org` is an external lookup from AS number to an
opaque, equality-comparable organization identifier; we keep it as a function
into an arbitrary type with decidable equality. -/

/-- One iteration of the inner comma loop of the candidate parser
(src/ip2as.py line 40): append one parsed integer to the accumulator. -/
def candAppend (acc2 : List Int) (a : Str) : Option (List Int) :=
  (intOfChars a).map (fun v => acc2 ++ [v])

/-- One iteration of the outer loop of the candidate parser: a `{`-led
segment runs the inner comma loop (Python `asn[1:-1].split(',')`), any other
segment appends its own integer value; an empty segment raises (`asn[0]`
is an `IndexError`). -/
def candStep (acc : List Int) (seg : Str) : Option (List Int) :=
  match seg with
  | [] => none
  | c :: cs =>
    if c = '{' then (splitOnChar ',' cs.dropLast).foldlM candAppend acc
    else (intOfChars seg).map (fun v => acc ++ [v])

/-- Embedding of the candidate-parsing loop of `determine_bgp`
(src/ip2as.py lines 36-42): iterate over the `_`-separated segments,
accumulating parsed candidates; `none` models a `ValueError` or
`IndexError` escaping the loop. -/
def parse_candidates (asn_s : Str) : Option (List Int) :=
  (splitOnChar '_' asn_s).foldlM candStep []

/-- The expansion of one segment as the spec states it declaratively: a
`{}`-wrapped segment stands for all of its comma-separated members in place,
any other segment for itself. -/
def segExpansion (seg : Str) : Option (List Int) :=
  match seg with
  | [] => none
  | c :: cs =>
    if c = '{' then optMap intOfChars (splitOnChar ',' cs.dropLast)
    else (intOfChars seg).map (fun v => [v])

/-- The candidate grammar as the spec states it declaratively: split on `_`
and expand every segment in place. Stated for comparison with the
accumulator-based loop `parse_candidates` embedded from the source. -/
def candidates_spec (asn_s : Str) : Option (List Int) :=
  (optMap segExpansion (splitOnChar '_' asn_s)).map List.flatten

/-- The cone-containment test of src/ip2as.py line 49: `asn` lies in the
customer cone of every other (value-distinct) candidate. -/
def coneDominated (bgp : BGP) (asns : List Int) (asn : Int) : Bool :=
  asns.all (fun other => other == asn || (bgp.cone other).contains asn)

/-- Embedding of `determine_bgp` from `src/ip2as.py` (lines 35-54); `none`
models an uncaught exception (unparsable token). -/
def determine_bgp {Org : Type} [DecidableEq Org]
    (asn_s : Str) (as2org : Int → Org) (bgp : BGP) : Option Int :=
  match parse_candidates asn_s with
  | none => none
  | some [] => none
  | some (a0 :: rest) =>
    let asns := a0 :: rest
    if asns.length = 1 then some a0
    else if ((asns.map as2org).dedup).length = 1 then some a0
    else
      match asns.find? (coneDominated bgp asns) with
      | some asn => some asn
      | none =>
        match max_num asns (fun x => -((bgp.conesize x : Int))) with
        | m :: _ => some m
        | [] => some a0

/-! ## The Lookup Table collaborator and `create_table` (src/ip2as.py lines 17-32)

```python
def create_table(prefixes, peeringdb: PeeringDB, rir, bgp: BGP, as2org: AS2Org):
    table = IP2AS()
    table.add_private()
    ixp_prefixes = [(prefix, asn) for prefix, asn in peeringdb.prefixes.items()
                    if not table.search_best_prefix(prefix)]
    for prefix, ixp_id in ixp_prefixes:
        table.add(prefix, asn=(-100 - ixp_id))
    prefixes = [(prefix, asn_s) for prefix, asn_s in prefixes
                if not table.search_best_prefix(prefix)]
    for prefix, asn_s in prefixes:
        asn = determine_bgp(asn_s, as2org, bgp)
        table.add(prefix, asn=asn)
    rir = [(prefix, asn_s) for prefix, asn_s in rir
           if not table.search_best_prefix(prefix)]
    for prefix, asn_s in rir:
        asns = list(map(int, asn_s.split('_')))
        asn = max(asns, key=lambda x: (bgp.conesize[x], -x))
        table.add(prefix, asn=asn)
    return table
```
-/

/-- Modelled from the spec: a CIDR prefix, "treated as an opaque string key by
the core; matching semantics (longest-match, containment) are owned by the
Lookup Table". We model a prefix as its bit string, so that containment of
network `q` in network `p` is exactly `p` being a list-prefix of `q`. -/
abbrev Pfx := List Bool

/-- Modelled from the spec: the Lookup Table collaborator
(`traceutils.radix.ip2as.IP2AS`, a radix prefix trie). It "stores prefix→AS
associations" with one binding per stored prefix; we model it as the
association list of its entries. -/
structure IP2AS where
  entries : List (Pfx × Int)
deriving DecidableEq

/-- Modelled from the spec: insertion of a prefix with an associated AS
identifier; inserting an already-stored prefix replaces its binding. -/
def IP2AS.add (t : IP2AS) (p : Pfx) (asn : Int) : IP2AS :=
  ⟨(p, asn) :: t.entries.filter (fun e => !(e.1 == p))⟩

/-- Modelled from the spec: best (longest) prefix match — the stored entry
with the longest prefix containing the queried network, `none` when no
stored prefix contains it. -/
def IP2AS.search_best_prefix (t : IP2AS) (p : Pfx) : Option (Pfx × Int) :=
  (t.entries.filter (fun e => e.1.isPrefixOf p)).foldl
    (fun best e =>
      match best with
      | none => some e
      | some b => if b.1.length < e.1.length then some e else some b)
    none

/-- The exchange-point layer (src/ip2as.py lines 20-22): filter out prefixes
that already have a best match, then insert each with AS `-100 - ixp_id`. -/
def ixp_layer (table : IP2AS) (peeringdb : List (Pfx × Int)) : IP2AS :=
  (peeringdb.filter (fun pa => ( table.search_best_prefix pa.1).isNone)).foldl
    (fun t pa => t.add pa.1 (-100 - pa.2)) table

/-- The routing-table layer (src/ip2as.py lines 23-26): filter out prefixes
that already have a best match, then insert each with the AS chosen by
`determine_bgp`; `none` models an exception escaping the loop. -/
def bgp_layer {Org : Type} [DecidableEq Org] (table : IP2AS)
    (prefixes : List (Pfx × Str)) (as2org : Int → Org) (bgp : BGP) :
    Option IP2AS :=
  (prefixes.filter (fun pa => ( table.search_best_prefix pa.1).isNone)).foldlM
    (fun t pa => (determine_bgp pa.2 as2org bgp).map (fun asn => t.add pa.1 asn))
    table

/-- The strict lexicographic comparison on the key `(conesize, -asn)` used
by the registry-layer `max` (src/ip2as.py line 30): does `x` beat `best`? -/
def regBetter (bgp : BGP) (best x : Int) : Bool :=
  decide (bgp.conesize best < bgp.conesize x)
    || (decide (bgp.conesize x = bgp.conesize best) && decide (-best < -x))

/-- The registry-layer AS selection (src/ip2as.py line 30): Python
`max(asns, key=lambda x: (bgp.conesize[x], -x))` — the first element
attaining the lexicographically greatest key `(conesize, -asn)`, `none` for
the empty list (where Python `max` raises). `regBetter` is the strict
lexicographic comparison `key x > key best` driving `max`'s running fold. -/
def registry_max (bgp : BGP) (asns : List Int) : Option Int :=
  match asns with
  | [] => none
  | a :: rest =>
    some (rest.foldl (fun best x => if regBetter bgp best x then x else best) a)

/-- The per-entry work of the registry layer (src/ip2as.py lines 29-30):
split the raw token on `_`, parse every piece as an integer, and select via
`registry_max`. -/
def rir_choice (bgp : BGP) (asn_s : Str) : Option Int :=
  (optMap intOfChars (splitOnChar '_' asn_s)).bind (registry_max bgp)

/-- The registry-delegation layer (src/ip2as.py lines 27-31): filter out
prefixes that already have a best match, then insert each with the AS chosen
by `rir_choice`. -/
def rir_layer (table : IP2AS) (rir : List (Pfx × Str)) (bgp : BGP) :
    Option IP2AS :=
  (rir.filter (fun pa => ( table.search_best_prefix pa.1).isNone)).foldlM
    (fun t pa => (rir_choice bgp pa.2).map (fun asn => t.add pa.1 asn))
    table

/-- Embedding of `create_table` from `src/ip2as.py` (lines 17-32) as the
composition of the three layers. `table0` stands for the state delivered by
the external Lookup Table's construction and private-range reservation
(`IP2AS(); table.add_private()`), whose contents are owned by the
collaborator. -/
def create_table {Org : Type} [DecidableEq Org] (table0 : IP2AS)
    (prefixes : List (Pfx × Str)) (peeringdb : List (Pfx × Int))
    (rir : List (Pfx × Str)) (bgp : BGP) (as2org : Int → Org) :
    Option IP2AS :=
  (bgp_layer (ixp_layer table0 peeringdb) prefixes as2org bgp).bind
    (fun t2 => rir_layer t2 rir bgp)

/-! ## `read_prefixes` (src/ip2as.py lines 57-83)

```python
def read_prefixes(filename: str):
    prefixes = []
    try:
        with File2(filename) as f:
            for line in f:
                prefix, asn_s = line.split()
                prefixes.append((prefix, asn_s))
    except ValueError:
        with File2(filename, "rt") as f:
            for line in f:
                if line[0] == '#':
                    continue
                addr, prefixlen, asn_s = line.split()
                asns = [asn for asn in map(int, asn_s.split('_')) if valid(asn)]
                if not asns:
                    continue
                asn_s = '_'.join(str(asn) for asn in asns)
                prefixlen = int(prefixlen)
                if ':' in addr:
                    if prefixlen > 48:
                        continue
                else:
                    if prefixlen > 24:
                        continue
                prefix = addr + '/' + str(prefixlen)   # via str.format in the source
                prefixes.append((prefix, asn_s))
    return prefixes
```

The file (`File2` is the external line iterator) is modelled as its list of
lines. -/

/-- One line of the simple two-field pass (src/ip2as.py line 62): exactly two
whitespace-separated fields, else `none` (a `ValueError`). -/
def twoFieldLine (line : Str) : Option (Str × Str) :=
  match words line with
  | [a, b] => some (a, b)
  | _ => none

/-- One line of the registry-delegation pass (src/ip2as.py lines 67-82).
Outer `none` models an uncaught exception; `some none` a skipped line;
`some (some entry)` a retained entry. -/
def delegationLine (line : Str) : Option (Option (Str × Str)) :=
  match line with
  | [] => none
  | c :: _ =>
    if c = '#' then some none
    else
      match words line with
      | [addr, prefixlen_s, asn_s] =>
        match optMap intOfChars (splitOnChar '_' asn_s) with
        | none => none
        | some asns0 =>
          let asns := asns0.filter valid
          if asns.isEmpty then some none
          else
            match intOfChars prefixlen_s with
            | none => none
            | some prefixlen =>
              if addr.contains ':' then
                if prefixlen > 48 then some none
                else some (some (addr ++ '/' :: intToChars prefixlen,
                  joinSep '_' (asns.map intToChars)))
              else
                if prefixlen > 24 then some none
                else some (some (addr ++ '/' :: intToChars prefixlen,
                  joinSep '_' (asns.map intToChars)))
      | _ => none

/-- Embedding of `read_prefixes` from `src/ip2as.py` (lines 57-83), over the
file's list of lines: attempt the two-field parse of every line; on a
`ValueError` (`none`), re-read the file in the registry-delegation format,
whose own exceptions propagate. -/
def read_prefixes (lines : List Str) : Option (List (Str × Str)) :=
  match optMap twoFieldLine lines with
  | some ps => some ps
  | none => (optMap delegationLine lines).map (List.filterMap id)

/-! ## Helper lemmas -/

@[simp] lemma optMap_nil {α β : Type} (f : α → Option β) :
    optMap f [] = some [] := rfl

@[simp] lemma optMap_cons {α β : Type} (f : α → Option β) (a : α) (l : List α) :
    optMap f (a :: l) = (f a).bind (fun b => (optMap f l).map (fun bs => b :: bs)) :=
  rfl

/-- The accumulator-passing integer-list fold used inside `parse_candidates`
agrees with `optMap` followed by an append. -/
lemma foldlM_candAppend (l : List Str) (acc : List Int) :
    l.foldlM candAppend acc = (optMap intOfChars l).map (fun vs => acc ++ vs) := by
  induction l generalizing acc with
  | nil => simp
  | cons a l ih =>
    cases h : intOfChars a with
    | none => simp [candAppend, h]
    | some v =>
      simp only [List.foldlM_cons, optMap_cons, candAppend, h, Option.map_some,
        Option.some_bind, ih]
      cases optMap intOfChars l <;> simp

/-- The segment fold of `parse_candidates` agrees with the declarative
per-segment expansion followed by flattening. -/
lemma foldlM_candStep (segs : List Str) (acc : List Int) :
    segs.foldlM candStep acc
      = (optMap segExpansion segs).map (fun vss => acc ++ List.flatten vss) := by
  induction segs generalizing acc with
  | nil => simp
  | cons seg segs ih =>
    rw [List.foldlM_cons, optMap_cons]
    cases seg with
    | nil => simp [candStep, segExpansion]
    | cons c cs =>
      by_cases hc : c = '{'
      · rw [candStep, segExpansion, if_pos hc, if_pos hc, foldlM_candAppend]
        cases h : optMap intOfChars (splitOnChar ',' cs.dropLast) with
        | none => simp [h]
        | some vs =>
          simp only [h, Option.map_some, Option.some_bind, ih]
          cases optMap segExpansion segs <;> simp
      · rw [candStep, segExpansion, if_neg hc, if_neg hc]
        cases h : intOfChars (c :: cs) with
        | none => simp [h]
        | some v =>
          simp only [h, Option.map_some, Option.some_bind, ih]
          cases optMap segExpansion segs <;> simp

/-! ## Claims C5 and C9 -/

/-- C5: the numeric validity predicate `valid` accepts an integer `asn`
exactly when `0 < asn < 64496` or `131071 < asn < 4200000000`, excluding
`23456`; in particular `23456`, `64496`, `131071`, `0`, and `4200000000`
are invalid while `64495` and `131072` are valid. -/
theorem C5_valid_characterization :
    (∀ asn : Int, valid asn = true ↔
      (((0 < asn ∧ asn < 64496) ∨ (131071 < asn ∧ asn < 4200000000))
        ∧ asn ≠ 23456)) ∧
    valid 23456 = false ∧ valid 64496 = false ∧ valid 131071 = false ∧
    valid 0 = false ∧ valid 4200000000 = false ∧
    valid 64495 = true ∧ valid 131072 = true := by
  refine ⟨fun asn => ?_, by decide, by decide, by decide, by decide, by decide,
    by decide, by decide⟩
  simp only [valid, Bool.or_eq_true, Bool.and_eq_true, decide_eq_true_eq,
    bne_iff_ne, ne_eq]
  omega

/-- C9: the candidate parsing of `determine_bgp` splits the raw token on `_` and
expands any `{}`-wrapped segment into all of its comma-separated members in
place (the accumulator loop of the source equals the declarative grammar
`candidates_spec`); in particular the token `"{64500,64501}_64502"` yields
the candidates `[64500, 64501, 64502]`. -/
theorem C9_parse_candidates_grammar :
    (∀ s : Str, parse_candidates s = candidates_spec s) ∧
    parse_candidates "{64500,64501}_64502".data = some [64500, 64501, 64502] := by
  refine ⟨fun s => ?_, by decide⟩
  simpa [parse_candidates, candidates_spec] using
    foldlM_candStep (splitOnChar '_' s) []

/-! ## Helper lemmas on `listMaxInt`, `max_num` and filters -/

lemma listMaxInt_cons_isSome (a : Int) (l : List Int) :
    ∃ m, listMaxInt (a :: l) = some m := by
  rw [listMaxInt]
  cases listMaxInt l <;> exact ⟨_, rfl⟩

lemma listMaxInt_spec {l : List Int} {m : Int} (h : listMaxInt l = some m) :
    m ∈ l ∧ ∀ x ∈ l, x ≤ m := by
  induction l generalizing m with
  | nil => simp [listMaxInt] at h
  | cons a l ih =>
    rw [listMaxInt] at h
    rcases hl : listMaxInt l with _ | m'
    · rw [hl] at h
      simp only [Option.some.injEq] at h
      subst h
      have hnil : l = [] := by
        cases l with
        | nil => rfl
        | cons b l' =>
          obtain ⟨m2, hm2⟩ := listMaxInt_cons_isSome b l'
          rw [hm2] at hl
          cases hl
      subst hnil
      simp
    · rw [hl] at h
      simp only [Option.some.injEq] at h
      subst h
      obtain ⟨hm', hall⟩ := ih hl
      constructor
      · rcases le_total a m' with hle | hle
        · simp [max_eq_right hle, hm']
        · simp [max_eq_left hle]
      · intro x hx
        rcases List.mem_cons.mp hx with rfl | hx
        · exact le_max_left _ _
        · exact le_trans (hall x hx) (le_max_right _ _)

lemma filter_eq_cons_decomp {α : Type} {p : α → Bool} {l : List α} {c : α}
    {t : List α} (h : l.filter p = c :: t) :
    ∃ l1 l2, l = l1 ++ c :: l2 ∧ p c = true ∧ ∀ x ∈ l1, p x = false := by
  induction l with
  | nil => simp at h
  | cons a l ih =>
    by_cases ha : p a
    · rw [List.filter_cons_of_pos ha] at h
      obtain ⟨rfl, -⟩ : a = c ∧ l.filter p = t := by
        constructor <;> [exact (List.cons.injEq _ _ _ _ ▸ h).1;
          exact (List.cons.injEq _ _ _ _ ▸ h).2]
      exact ⟨[], l, rfl, ha, by simp⟩
    · rw [List.filter_cons_of_neg ha] at h
      obtain ⟨l1, l2, rfl, hc, hl1⟩ := ih h
      refine ⟨a :: l1, l2, rfl, hc, ?_⟩
      intro x hx
      rcases List.mem_cons.mp hx with rfl | hx
      · simpa using ha
      · exact hl1 x hx

/-- The head of `max_num` on a nonempty list: it is an element attaining the
greatest key, every earlier element of the list has a strictly smaller key,
and such a head always exists. -/
lemma max_num_head {α : Type} (key : α → Int) (a : α) (l : List α) :
    ∃ c t l1 l2, max_num (a :: l) key = c :: t ∧ a :: l = l1 ++ c :: l2 ∧
      (∀ x ∈ a :: l, key x ≤ key c) ∧ ∀ x ∈ l1, key x < key c := by
  obtain ⟨m, hm⟩ := listMaxInt_cons_isSome (key a) (l.map key)
  have hm' : listMaxInt ((a :: l).map key) = some m := by simpa using hm
  obtain ⟨hmem, hall⟩ := listMaxInt_spec hm'
  rw [List.mem_map] at hmem
  obtain ⟨w, hwl, hwm⟩ := hmem
  have hfil : max_num (a :: l) key = (a :: l).filter (fun x => key x == m) := by
    rw [max_num, hm']
  have : ∃ c t, (a :: l).filter (fun x => key x == m) = c :: t := by
    rcases hfc : (a :: l).filter (fun x => key x == m) with _ | ⟨c, t⟩
    · exfalso
      have := List.filter_eq_nil_iff.mp hfc w hwl
      simp [hwm] at this
    · exact ⟨c, t, rfl⟩
  obtain ⟨c, t, hct⟩ := this
  obtain ⟨l1, l2, hdec, hpc, hl1⟩ := filter_eq_cons_decomp hct
  have hkc : key c = m := by simpa using hpc
  refine ⟨c, t, l1, l2, by rw [hfil, hct], hdec, ?_, ?_⟩
  · intro x hx
    rw [hkc]
    exact hall _ (List.mem_map_of_mem key hx)
  · intro x hx
    have hne : key x ≠ m := by simpa using hl1 x hx
    have hle : key x ≤ m := hall _ (List.mem_map_of_mem key (by rw [hdec]; simp [hx]))
    rw [hkc]
    omega

/-! ## Claims C8, C6 and C1 (AS disambiguation) -/

/-- C8: for every well-formed token whose candidates all map to the same
organization (including the single-candidate case), `determine_bgp` returns
the first candidate in original order. -/
theorem C8_same_org_first {Org : Type} [DecidableEq Org]
    (asn_s : Str) (as2org : Int → Org) (bgp : BGP) (a0 : Int) (rest : List Int)
    (hp : parse_candidates asn_s = some (a0 :: rest))
    (horg : (((a0 :: rest).map as2org).dedup).length = 1) :
    determine_bgp asn_s as2org bgp = some a0 := by
  have horg2 : (as2org a0 :: List.map as2org rest).dedup.length = 1 := by
    simpa using horg
  by_cases hrest : rest = []
  · subst hrest
    simp [determine_bgp, hp]
  · simp [determine_bgp, hp, hrest, horg2]

/-- C8 witness: `"64500_64501"` with both ASes in one organization resolves
to 64500, the first candidate. -/
theorem C8_witness :
    determine_bgp "64500_64501".data (fun _ => (0 : Int))
      ⟨fun _ => [], fun _ => 0⟩ = some 64500 :=
  C8_same_org_first _ _ _ 64500 [64501] (by decide) (by decide)

/-- C6: for every well-formed multi-candidate token with more than one
distinct organization, if some candidate is a customer-cone member of every
other candidate, `determine_bgp` returns the first such candidate in
original order (`List.find?` over the original candidate order), regardless
of cone sizes — the containment rule precedes the cone-size rule. -/
theorem C6_cone_containment {Org : Type} [DecidableEq Org]
    (asn_s : Str) (as2org : Int → Org) (bgp : BGP) (a0 c : Int) (rest : List Int)
    (hp : parse_candidates asn_s = some (a0 :: rest))
    (horg : 1 < (((a0 :: rest).map as2org).dedup).length)
    (hfind : (a0 :: rest).find? (coneDominated bgp (a0 :: rest)) = some c) :
    determine_bgp asn_s as2org bgp = some c := by
  have hrest : rest ≠ [] := by
    intro h
    subst h
    simp at horg
  have horg2 : (as2org a0 :: List.map as2org rest).dedup.length ≠ 1 := by
    intro h
    rw [show ((a0 :: rest).map as2org).dedup
        = (as2org a0 :: List.map as2org rest).dedup by simp, h] at horg
    omega
  simp [determine_bgp, hp, hrest, horg2, hfind]

/-- C6 witness: candidates `[30, 20, 10]`, organizations all distinct, AS 20
contained in the cone of 30 and of 10 → 20 is returned. -/
theorem C6_witness :
    determine_bgp "30_20_10".data (fun a : Int => a)
      ⟨fun x => if x = 20 then [] else [20], fun _ => 0⟩ = some 20 :=
  C6_cone_containment _ _ _ 30 20 [20, 10] (by decide) (by decide) (by decide)

/-- C1 counterexample: token `"30_10_20"`, three distinct organizations, no
cone containment (all cones empty), cone sizes `30 ↦ 1`, `10 ↦ 5`, `20 ↦ 1`.
The claim predicts the unique maximum-cone-size candidate 10; the code
returns 30 (the first candidate of minimum cone size). -/
theorem C1_counterexample :
    determine_bgp "30_10_20".data (fun a : Int => a)
      ⟨fun _ => [], fun x => if x = 10 then 5 else 1⟩ = some 30 ∧
    parse_candidates "30_10_20".data = some [30, 10, 20] ∧
    (([30, 10, 20].map (fun a : Int => a)).dedup).length = 3 ∧
    ([30, 10, 20].find?
      (coneDominated ⟨fun _ => [], fun x => if x = 10 then 5 else 1⟩ [30, 10, 20]))
      = none ∧
    (BGP.conesize ⟨fun _ => [], fun x => if x = 10 then 5 else 1⟩ 10 = 5) ∧
    (BGP.conesize ⟨fun _ => [], fun x => if x = 10 then 5 else 1⟩ 30 = 1) ∧
    (30 : Int) ≠ 10 := by
  refine ⟨by decide, by decide, by decide, by decide, by decide, by decide,
    by decide⟩

/-- C1 (amended): for every well-formed routing-origin token whose candidates
are not resolved by the single-candidate, same-organization, or
cone-containment rules, `determine_bgp` selects the candidates with the
MINIMUM customer-cone size and returns the FIRST of them in original
candidate order (not the maximum cone size, and not the smallest AS number). -/
theorem C1_min_cone_first {Org : Type} [DecidableEq Org]
    (asn_s : Str) (as2org : Int → Org) (bgp : BGP) (a0 : Int) (rest : List Int)
    (hp : parse_candidates asn_s = some (a0 :: rest))
    (horg : 1 < (((a0 :: rest).map as2org).dedup).length)
    (hfind : (a0 :: rest).find? (coneDominated bgp (a0 :: rest)) = none) :
    ∃ c l1 l2, determine_bgp asn_s as2org bgp = some c ∧
      a0 :: rest = l1 ++ c :: l2 ∧
      (∀ x ∈ a0 :: rest, bgp.conesize c ≤ bgp.conesize x) ∧
      (∀ x ∈ l1, bgp.conesize c < bgp.conesize x) := by
  have hrest : rest ≠ [] := by
    intro h
    subst h
    simp at horg
  have horg2 : (as2org a0 :: List.map as2org rest).dedup.length ≠ 1 := by
    intro h
    rw [show ((a0 :: rest).map as2org).dedup
        = (as2org a0 :: List.map as2org rest).dedup by simp, h] at horg
    omega
  obtain ⟨c, t, l1, l2, hmax, hdec, hle, hlt⟩ :=
    max_num_head (fun x => -((bgp.conesize x : Int))) a0 rest
  refine ⟨c, l1, l2, ?_, hdec, ?_, ?_⟩
  · simp [determine_bgp, hp, hrest, horg2, hfind, hmax]
  · intro x hx
    have := hle x hx
    simp only [neg_le_neg_iff, Nat.cast_le] at this
    exact_mod_cast this
  · intro x hx
    have := hlt x hx
    simp only [neg_lt_neg_iff, Nat.cast_lt] at this
    exact_mod_cast this

/-- C1 witness: the amended rule applied to the counterexample input: the
returned candidate 30 attains the minimum cone size and is the first such. -/
theorem C1_witness :
    ∃ c l1 l2,
      determine_bgp "30_10_20".data (fun a : Int => a)
        ⟨fun _ => [], fun x => if x = 10 then 5 else 1⟩ = some c ∧
      (30 : Int) :: [10, 20] = l1 ++ c :: l2 ∧
      (∀ x ∈ (30 : Int) :: [10, 20],
        BGP.conesize ⟨fun _ => [], fun x => if x = 10 then 5 else 1⟩ c
          ≤ BGP.conesize ⟨fun _ => [], fun x => if x = 10 then 5 else 1⟩ x) ∧
      (∀ x ∈ l1,
        BGP.conesize ⟨fun _ => [], fun x => if x = 10 then 5 else 1⟩ c
          < BGP.conesize ⟨fun _ => [], fun x => if x = 10 then 5 else 1⟩ x) :=
  C1_min_cone_first _ _ _ 30 [10, 20] (by decide) (by decide) (by decide)

/-! ## Claim C2 (registry-layer selection) -/

lemma regBetter_iff (bgp : BGP) (best x : Int) :
    regBetter bgp best x = true ↔
      (bgp.conesize best < bgp.conesize x ∨
        (bgp.conesize x = bgp.conesize best ∧ x < best)) := by
  simp only [regBetter, Bool.or_eq_true, Bool.and_eq_true, decide_eq_true_eq]
  omega

lemma regBetter_eq_false_iff (bgp : BGP) (best x : Int) :
    regBetter bgp best x = false ↔
      (bgp.conesize x < bgp.conesize best ∨
        (bgp.conesize x = bgp.conesize best ∧ best ≤ x)) := by
  rw [Bool.eq_false_iff, ne_eq, regBetter_iff]
  omega

/-- The running fold of Python `max` under the registry key: the result is an
element of the list that no element of the list beats. -/
lemma regFold_spec (bgp : BGP) (rest : List Int) (a : Int) :
    (rest.foldl (fun best x => if regBetter bgp best x then x else best) a)
        ∈ a :: rest ∧
      ∀ x ∈ a :: rest,
        regBetter bgp
          (rest.foldl (fun best x => if regBetter bgp best x then x else best) a)
          x = false := by
  induction rest generalizing a with
  | nil =>
    refine ⟨List.mem_singleton_self a, ?_⟩
    intro x hx
    rw [List.mem_singleton] at hx
    subst hx
    rw [List.foldl_nil, regBetter_eq_false_iff]
    omega
  | cons b rest ih =>
    rw [List.foldl_cons]
    by_cases hab : regBetter bgp a b = true
    · rw [if_pos hab]
      obtain ⟨hmem, hbeat⟩ := ih b
      have hself := hbeat b (List.mem_cons_self b rest)
      rw [regBetter_eq_false_iff] at hself
      rw [regBetter_iff] at hab
      refine ⟨?_, ?_⟩
      · rcases List.mem_cons.mp hmem with h | h
        · rw [h]
          exact List.mem_cons_of_mem a (List.mem_cons_self b rest)
        · exact List.mem_cons_of_mem a (List.mem_cons_of_mem b h)
      · intro x hx
        rcases List.mem_cons.mp hx with rfl | hx'
        · rw [regBetter_eq_false_iff]
          rcases hself with h | h <;> rcases hab with g | g
          · exact Or.inl (lt_of_lt_of_le g (le_of_lt h))
          · exact Or.inl (g.1 ▸ h)
          · exact Or.inl (h.1 ▸ g)
          · exact Or.inr ⟨g.1.symm.trans h.1, le_trans h.2 (le_of_lt g.2)⟩
        · exact hbeat x hx'
    · rw [if_neg hab]
      obtain ⟨hmem, hbeat⟩ := ih a
      have hself := hbeat a (List.mem_cons_self a rest)
      rw [regBetter_eq_false_iff] at hself
      have hab' : regBetter bgp a b = false := Bool.eq_false_iff.mpr hab
      rw [regBetter_eq_false_iff] at hab'
      refine ⟨?_, ?_⟩
      · rcases List.mem_cons.mp hmem with h | h
        · rw [h]
          exact List.mem_cons_self a (b :: rest)
        · exact List.mem_cons_of_mem a (List.mem_cons_of_mem b h)
      · intro x hx
        rcases List.mem_cons.mp hx with rfl | hx'
        · exact hbeat x (List.mem_cons_self x rest)
        · rcases List.mem_cons.mp hx' with rfl | hx''
          · rw [regBetter_eq_false_iff]
            rcases hself with h | h <;> rcases hab' with g | g
            · exact Or.inl (lt_trans g h)
            · exact Or.inl (g.1 ▸ h)
            · exact Or.inl (h.1 ▸ g)
            · exact Or.inr ⟨g.1.trans h.1, le_trans h.2 g.2⟩
          · exact hbeat x (List.mem_cons_of_mem a hx'')

/-- C2 counterexample: a registry token `"10_20"` with equal cone sizes. The
claim predicts the larger AS 20; `create_table` inserts 10, the smaller. -/
theorem C2_counterexample :
    create_table ⟨[]⟩ [] [] [([true], "10_20".data)]
      ⟨fun _ => [], fun _ => 1⟩ (fun a : Int => a) = some ⟨[([true], 10)]⟩ ∧
    BGP.conesize ⟨fun _ => [], fun _ => 1⟩ 10
      = BGP.conesize ⟨fun _ => [], fun _ => 1⟩ 20 ∧
    (10 : Int) ≠ 20 := by
  refine ⟨by decide, by decide, by decide⟩

/-- C2 (amended): for every registry-delegation entry inserted by the Table
Builder — `rir_layer` inserts exactly the value `rir_choice` computes for
the entry's raw token — the inserted AS is a candidate (from splitting the
raw token on `_`) with the largest customer-cone size, and when several
candidates tie on cone size the one with the SMALLER AS number is chosen
(the same secondary direction the claim ascribes to the routing-origin
rule, not the opposite one). -/
theorem C2_registry_selection (bgp : BGP) (asn_s : Str) (c : Int)
    (h : rir_choice bgp asn_s = some c) :
    ∃ asns, optMap intOfChars (splitOnChar '_' asn_s) = some asns ∧
      c ∈ asns ∧
      ∀ x ∈ asns, bgp.conesize x < bgp.conesize c ∨
        (bgp.conesize x = bgp.conesize c ∧ c ≤ x) := by
  rw [rir_choice] at h
  cases hmap : optMap intOfChars (splitOnChar '_' asn_s) with
  | none => rw [hmap] at h; cases h
  | some asns =>
    rw [hmap] at h
    simp only [Option.some_bind] at h
    cases asns with
    | nil => simp [registry_max] at h
    | cons a rest =>
      rw [registry_max] at h
      simp only [Option.some.injEq] at h
      obtain ⟨hmem, hbeat⟩ := regFold_spec bgp rest a
      rw [h] at hmem hbeat
      refine ⟨a :: rest, rfl, hmem, ?_⟩
      intro x hx
      exact (regBetter_eq_false_iff bgp c x).mp (hbeat x hx)

/-- C2 witness: the amended rule applied to the counterexample input: the
selected AS 10 is a candidate, and every candidate has a smaller cone or
ties with an AS number at least 10. -/
theorem C2_witness :
    ∃ asns, optMap intOfChars (splitOnChar '_' "10_20".data) = some asns ∧
      (10 : Int) ∈ asns ∧
      ∀ x ∈ asns,
        BGP.conesize ⟨fun _ => [], fun _ => 1⟩ x
            < BGP.conesize ⟨fun _ => [], fun _ => 1⟩ 10 ∨
          (BGP.conesize ⟨fun _ => [], fun _ => 1⟩ x
              = BGP.conesize ⟨fun _ => [], fun _ => 1⟩ 10 ∧ (10 : Int) ≤ x) :=
  C2_registry_selection ⟨fun _ => [], fun _ => 1⟩ "10_20".data 10 (by decide)

/-! ## Claims C4 and C7 (input reader) -/

@[simp] lemma words_nil : words [] = [] := rfl

lemma optMap_eq_none_of_mem {α β : Type} {f : α → Option β} {l : List α}
    {x : α} (hx : x ∈ l) (hf : f x = none) : optMap f l = none := by
  induction l with
  | nil => cases hx
  | cons a l ih =>
    rcases List.mem_cons.mp hx with rfl | hx'
    · simp [hf]
    · rw [optMap_cons, ih hx']
      cases f a <;> rfl

/-- C4: reading a file that is in the simple two-field format (it has at
least one line of exactly two whitespace-separated fields, not a comment)
and contains a malformed line (one the two-field parse rejects) is fatal:
`read_prefixes` propagates a parse failure (`none`) to its caller instead of
tolerating or skipping the line. (The malformed line sends the reader into
the delegation-format re-parse, where the genuine two-field line raises.) -/
theorem C4_two_field_malformed_fatal (lines : List Str)
    (h1 : ∃ l ∈ lines, twoFieldLine l = none)
    (h2 : ∃ l ∈ lines, (words l).length = 2 ∧ l.head? ≠ some '#') :
    read_prefixes lines = none := by
  obtain ⟨l1, hl1, he1⟩ := h1
  obtain ⟨l2, hl2, hw2, hh2⟩ := h2
  have htf : optMap twoFieldLine lines = none := optMap_eq_none_of_mem hl1 he1
  have hdel : delegationLine l2 = none := by
    obtain ⟨w1, w2, hw⟩ := List.length_eq_two.mp hw2
    cases l2 with
    | nil => simp at hw
    | cons c cs =>
      have hc : c ≠ '#' := by
        intro h
        subst h
        exact hh2 rfl
      simp only [delegationLine, if_neg hc, hw]
  rw [read_prefixes, htf]
  rw [optMap_eq_none_of_mem hl2 hdel]
  rfl

/-- C4 witness: a two-line file whose first line is genuine two-field data
and whose second line is malformed; reading it fails. -/
theorem C4_witness :
    (∃ l ∈ (["1.0.0.0/24 64500".data, "badline".data] : List Str),
      twoFieldLine l = none) ∧
    (∃ l ∈ (["1.0.0.0/24 64500".data, "badline".data] : List Str),
      (words l).length = 2 ∧ l.head? ≠ some '#') ∧
    read_prefixes ["1.0.0.0/24 64500".data, "badline".data] = none :=
  ⟨by decide, by decide,
    C4_two_field_malformed_fatal _ (by decide) (by decide)⟩

/-- C7: the registry-delegation normalization of `read_prefixes`:
(1) a line starting with `#` is skipped;
(2) an `address prefixLength AS-set` line none of whose AS numbers is
    numerically valid is discarded entirely;
(3) an IPv4 entry (no `:` in the address) with prefix length above 24, or an
    IPv6 entry (`:` in the address) with prefix length above 48, is discarded;
(4) every retained entry keeps exactly the numerically valid AS numbers of
    its AS-set and reconstructs its CIDR string as `address/length` from the
    re-parsed length. -/
theorem C7_delegation_normalization :
    (∀ cs : List Char, delegationLine ('#' :: cs) = some none) ∧
    (∀ line addr plen_s asn_s : Str, ∀ asns0 : List Int,
      line.head? ≠ some '#' →
      words line = [addr, plen_s, asn_s] →
      optMap intOfChars (splitOnChar '_' asn_s) = some asns0 →
      asns0.filter valid = [] →
      delegationLine line = some none) ∧
    (∀ line addr plen_s asn_s : Str, ∀ asns0 : List Int, ∀ plen : Int,
      line.head? ≠ some '#' →
      words line = [addr, plen_s, asn_s] →
      optMap intOfChars (splitOnChar '_' asn_s) = some asns0 →
      asns0.filter valid ≠ [] →
      intOfChars plen_s = some plen →
      ((addr.contains ':' = true ∧ 48 < plen) ∨
        (addr.contains ':' = false ∧ 24 < plen)) →
      delegationLine line = some none) ∧
    (∀ line addr plen_s asn_s : Str, ∀ asns0 : List Int, ∀ plen : Int,
      line.head? ≠ some '#' →
      words line = [addr, plen_s, asn_s] →
      optMap intOfChars (splitOnChar '_' asn_s) = some asns0 →
      asns0.filter valid ≠ [] →
      intOfChars plen_s = some plen →
      (addr.contains ':' = true → plen ≤ 48) →
      (addr.contains ':' = false → plen ≤ 24) →
      delegationLine line = some (some (addr ++ '/' :: intToChars plen,
        joinSep '_' ((asns0.filter valid).map intToChars)))) := by
  have hcons : ∀ (line addr plen_s asn_s : Str),
      line.head? ≠ some '#' → words line = [addr, plen_s, asn_s] →
      ∃ c cs, line = c :: cs ∧ c ≠ '#' := by
    intro line addr plen_s asn_s hh hw
    cases line with
    | nil => simp at hw
    | cons c cs =>
      refine ⟨c, cs, rfl, ?_⟩
      intro h
      subst h
      exact hh rfl
  refine ⟨?_, ?_, ?_, ?_⟩
  · intro cs
    simp [delegationLine]
  · intro line addr plen_s asn_s asns0 hh hw hasns hfe
    obtain ⟨c, cs, rfl, hc⟩ := hcons line addr plen_s asn_s hh hw
    simp only [delegationLine, if_neg hc, hw, hasns, hfe]
    rfl
  · intro line addr plen_s asn_s asns0 plen hh hw hasns hfne hplen hlong
    obtain ⟨c, cs, rfl, hc⟩ := hcons line addr plen_s asn_s hh hw
    have hie : (asns0.filter valid).isEmpty = false := by
      cases hfv : asns0.filter valid with
      | nil => exact absurd hfv hfne
      | cons x xs => rfl
    simp only [delegationLine, if_neg hc, hw, hasns, hie, Bool.false_eq_true,
      if_false, hplen]
    rcases hlong with ⟨hcont, hlt⟩ | ⟨hcont, hlt⟩
    · rw [hcont, if_pos rfl, if_pos hlt]
    · rw [hcont]
      simp only [Bool.false_eq_true, if_false]
      rw [if_pos hlt]
  · intro line addr plen_s asn_s asns0 plen hh hw hasns hfne hplen h48 h24
    obtain ⟨c, cs, rfl, hc⟩ := hcons line addr plen_s asn_s hh hw
    have hie : (asns0.filter valid).isEmpty = false := by
      cases hfv : asns0.filter valid with
      | nil => exact absurd hfv hfne
      | cons x xs => rfl
    simp only [delegationLine, if_neg hc, hw, hasns, hie, Bool.false_eq_true,
      if_false, hplen]
    cases hcont : addr.contains ':' with
    | true =>
      rw [if_pos rfl, if_neg (not_lt.mpr (h48 hcont))]
    | false =>
      simp only [Bool.false_eq_true, if_false]
      rw [if_neg (not_lt.mpr (h24 hcont))]

/-- C7 witness: concrete delegation lines exercising each branch: a comment,
an entry whose only AS is the invalid 23456, an IPv4 `/25` entry, and a
retained IPv4 `/24` entry reconstructed as `1.0.0.0/24` with only its valid
AS 64000 kept. -/
theorem C7_witness :
    delegationLine "# header".data = some none ∧
    delegationLine "1.0.0.0 24 23456".data = some none ∧
    delegationLine "2.0.0.0 25 64000".data = some none ∧
    delegationLine "1.0.0.0 24 23456_64000".data =
      some (some ("1.0.0.0/24".data, "64000".data)) := by
  refine ⟨?_, ?_, ?_, ?_⟩
  · exact C7_delegation_normalization.1 " header".data
  · exact C7_delegation_normalization.2.1 _ "1.0.0.0".data "24".data "23456".data
      [23456] (by decide) (by decide) (by decide) (by decide)
  · exact C7_delegation_normalization.2.2.1 _ "2.0.0.0".data "25".data "64000".data
      [64000] 25 (by decide) (by decide) (by decide) (by decide) (by decide)
      (by decide)
  · have h := C7_delegation_normalization.2.2.2 "1.0.0.0 24 23456_64000".data
      "1.0.0.0".data "24".data "23456_64000".data [23456, 64000] 24 (by decide)
      (by decide) (by decide) (by decide) (by decide) (by decide) (by decide)
    rw [h]
    decide

/-! ## Helper lemmas on the Lookup Table model and the layer folds -/

lemma search_best_foldl_some {l : List (Pfx × Int)} {b : Pfx × Int} :
    (l.foldl
      (fun best e =>
        match best with
        | none => some e
        | some b => if b.1.length < e.1.length then some e else some b)
      (some b)) ≠ none := by
  induction l generalizing b with
  | nil => simp
  | cons e l ih =>
    rw [List.foldl_cons]
    by_cases h : b.1.length < e.1.length
    · simpa [h] using ih
    · simpa [h] using ih

lemma search_best_prefix_eq_none_iff (t : IP2AS) (p : Pfx) :
    t.search_best_prefix p = none ↔
      ∀ e ∈ t.entries, e.1.isPrefixOf p = false := by
  rw [ IP2AS.search_best_prefix]
  constructor
  · intro h e he
    cases hf : t.entries.filter (fun e => e.1.isPrefixOf p) with
    | nil =>
      exact Bool.eq_false_iff.mpr (List.filter_eq_nil_iff.mp hf e he)
    | cons b l =>
      rw [hf, List.foldl_cons] at h
      exact absurd h search_best_foldl_some
  · intro h
    have hf : t.entries.filter (fun e => e.1.isPrefixOf p) = [] := by
      rw [List.filter_eq_nil_iff]
      intro e he
      rw [h e he]
      simp
    rw [hf]
    rfl

lemma mem_add_self (t : IP2AS) (p : Pfx) (a : Int) :
    (p, a) ∈ (t.add p a).entries := by
  simp [IP2AS.add]

lemma mem_add_of_ne {t : IP2AS} {q p : Pfx} {b a : Int} (h : q ≠ p) :
    (q, b) ∈ (t.add p a).entries ↔ (q, b) ∈ t.entries := by
  simp only [IP2AS.add, List.mem_cons, List.mem_filter, Prod.mk.injEq,
    Bool.not_eq_eq_eq_not, Bool.not_true, beq_eq_false_iff_ne, ne_eq]
  constructor
  · rintro (⟨rfl, rfl⟩ | ⟨hm, -⟩)
    · exact absurd rfl h
    · exact hm
  · intro hm
    exact Or.inr ⟨hm, h⟩

lemma key_mem_add {t : IP2AS} {q p : Pfx} {a : Int}
    (h : ∃ b, (q, b) ∈ t.entries) : ∃ b, (q, b) ∈ (t.add p a).entries := by
  by_cases hqp : q = p
  · subst hqp
    exact ⟨a, mem_add_self t q a⟩
  · obtain ⟨b, hb⟩ := h
    exact ⟨b, (mem_add_of_ne hqp).mpr hb⟩

/-- An entry present in the table and whose prefix differs from every
inserted prefix survives a pure insertion fold. -/
lemma foldl_add_preserve {τ : Type} (f : Pfx × τ → Int) (l : List (Pfx × τ))
    (q : Pfx) (b : Int) :
    ∀ t0 : IP2AS, (∀ pa ∈ l, pa.1 ≠ q) → (q, b) ∈ t0.entries →
      (q, b) ∈ (l.foldl (fun t pa => t.add pa.1 (f pa)) t0).entries := by
  induction l with
  | nil => exact fun t0 _ hq => hq
  | cons pa l ih =>
    intro t0 hk hq
    rw [List.foldl_cons]
    refine ih _ (fun e he => hk e (List.mem_cons_of_mem pa he)) ?_
    exact (mem_add_of_ne (fun h => hk pa (List.mem_cons_self pa l) h.symm)).mpr hq

/-- A prefix present in the table keeps (some) binding through a pure
insertion fold. -/
lemma foldl_add_key_present {τ : Type} (f : Pfx × τ → Int) (l : List (Pfx × τ))
    (q : Pfx) :
    ∀ t0 : IP2AS, (∃ b, (q, b) ∈ t0.entries) →
      ∃ b, (q, b) ∈ (l.foldl (fun t pa => t.add pa.1 (f pa)) t0).entries := by
  induction l with
  | nil => exact fun t0 hq => hq
  | cons pa l ih =>
    intro t0 hq
    rw [List.foldl_cons]
    exact ih _ (key_mem_add hq)

/-- Every listed prefix ends up bound (to something) after a pure insertion
fold. -/
lemma foldl_add_inserts {τ : Type} (f : Pfx × τ → Int) (l : List (Pfx × τ))
    (pa : Pfx × τ) (h : pa ∈ l) :
    ∀ t0 : IP2AS,
      ∃ b, (pa.1, b) ∈ (l.foldl (fun t e => t.add e.1 (f e)) t0).entries := by
  induction l with
  | nil => cases h
  | cons e l ih =>
    intro t0
    rw [List.foldl_cons]
    rcases List.mem_cons.mp h with rfl | h'
    · exact foldl_add_key_present f l pa.1 _ ⟨f pa, mem_add_self t0 pa.1 (f pa)⟩
    · exact ih h' _

/-- Monadic (Option) version of `foldl_add_preserve`, for the fallible layers. -/
lemma foldlM_add_preserve {τ : Type} (V : Pfx × τ → Option Int)
    (l : List (Pfx × τ)) (q : Pfx) (b : Int) :
    ∀ t0 T : IP2AS,
      l.foldlM (fun t pa => (V pa).map (fun asn => t.add pa.1 asn)) t0 = some T →
      (∀ pa ∈ l, pa.1 ≠ q) → (q, b) ∈ t0.entries → (q, b) ∈ T.entries := by
  induction l with
  | nil =>
    intro t0 T hrun _ hq
    rw [List.foldlM_nil] at hrun
    cases hrun
    exact hq
  | cons pa l ih =>
    intro t0 T hrun hk hq
    rw [List.foldlM_cons] at hrun
    cases hV : V pa with
    | none => rw [hV] at hrun; cases hrun
    | some v =>
      rw [hV] at hrun
      simp only [Option.map_some', Option.bind_eq_bind, Option.some_bind] at hrun
      refine ih _ _ hrun (fun e he => hk e (List.mem_cons_of_mem pa he)) ?_
      exact (mem_add_of_ne
        (fun h => hk pa (List.mem_cons_self pa l) h.symm)).mpr hq

/-- Monadic (Option) version of `foldl_add_key_present`. -/
lemma foldlM_add_key_present {τ : Type} (V : Pfx × τ → Option Int)
    (l : List (Pfx × τ)) (q : Pfx) :
    ∀ t0 T : IP2AS,
      l.foldlM (fun t pa => (V pa).map (fun asn => t.add pa.1 asn)) t0 = some T →
      (∃ b, (q, b) ∈ t0.entries) → ∃ b, (q, b) ∈ T.entries := by
  induction l with
  | nil =>
    intro t0 T hrun hq
    rw [List.foldlM_nil] at hrun
    cases hrun
    exact hq
  | cons pa l ih =>
    intro t0 T hrun hq
    rw [List.foldlM_cons] at hrun
    cases hV : V pa with
    | none => rw [hV] at hrun; cases hrun
    | some v =>
      rw [hV] at hrun
      simp only [Option.map_some', Option.bind_eq_bind, Option.some_bind] at hrun
      exact ih _ _ hrun (key_mem_add hq)

/-- Monadic (Option) version of `foldl_add_inserts`. -/
lemma foldlM_add_inserts {τ : Type} (V : Pfx × τ → Option Int)
    (l : List (Pfx × τ)) (pa : Pfx × τ) (h : pa ∈ l) :
    ∀ t0 T : IP2AS,
      l.foldlM (fun t e => (V e).map (fun asn => t.add e.1 asn)) t0 = some T →
      ∃ b, (pa.1, b) ∈ T.entries := by
  induction l with
  | nil => cases h
  | cons e l ih =>
    intro t0 T hrun
    rw [List.foldlM_cons] at hrun
    cases hV : V e with
    | none => rw [hV] at hrun; cases hrun
    | some v =>
      rw [hV] at hrun
      simp only [Option.map_some', Option.bind_eq_bind, Option.some_bind] at hrun
      rcases List.mem_cons.mp h with rfl | h'
      · exact foldlM_add_key_present V l pa.1 _ _ hrun
          ⟨v, mem_add_self t0 pa.1 v⟩
      · exact ih h' _ _ hrun

/-- A table entry is never dropped (nor rebound) by a layer running from a
state that already contains it: the layer's pre-filter removes every pair
whose prefix has a best match, and a stored prefix is a best match for
itself. -/
lemma layer_key_ne_of_mem {t : IP2AS} {q : Pfx} {b : Int}
    (hq : (q, b) ∈ t.entries) {τ : Type} (pa : Pfx × τ)
    (hpa : ( t.search_best_prefix pa.1).isNone = true) : pa.1 ≠ q := by
  intro h
  subst h
  rw [Option.isNone_iff_eq_none, search_best_prefix_eq_none_iff] at hpa
  have hfalse : List.isPrefixOf pa.1 pa.1 = false := hpa (pa.1, b) hq
  have htrue : List.isPrefixOf pa.1 pa.1 = true :=
    List.isPrefixOf_iff_prefix.mpr (List.prefix_refl pa.1)
  rw [htrue] at hfalse
  cases hfalse

lemma ixp_layer_preserves {t : IP2AS} {X : List (Pfx × Int)} {q : Pfx}
    {b : Int} (hq : (q, b) ∈ t.entries) : (q, b) ∈ (ixp_layer t X).entries := by
  refine foldl_add_preserve _ _ _ _ _ ?_ hq
  intro pa hpa
  exact layer_key_ne_of_mem hq pa (List.mem_filter.mp hpa).2

lemma bgp_layer_preserves {Org : Type} [DecidableEq Org] {t T : IP2AS}
    {P : List (Pfx × Str)} {as2org : Int → Org} {bgp : BGP}
    (hrun : bgp_layer t P as2org bgp = some T) {q : Pfx} {b : Int}
    (hq : (q, b) ∈ t.entries) : (q, b) ∈ T.entries := by
  refine foldlM_add_preserve _ _ _ _ _ _ hrun ?_ hq
  intro pa hpa
  exact layer_key_ne_of_mem hq pa (List.mem_filter.mp hpa).2

lemma rir_layer_preserves {t T : IP2AS} {R : List (Pfx × Str)} {bgp : BGP}
    (hrun : rir_layer t R bgp = some T) {q : Pfx} {b : Int}
    (hq : (q, b) ∈ t.entries) : (q, b) ∈ T.entries := by
  refine foldlM_add_preserve _ _ _ _ _ _ hrun ?_ hq
  intro pa hpa
  exact layer_key_ne_of_mem hq pa (List.mem_filter.mp hpa).2

/-! ## Claims C3 and C10 (layered table construction) -/

/-- C3 counterexample: two overlapping prefixes in the SAME (routing-table)
layer. Both pass the layer's pre-filter, evaluated against the table state
at the start of the layer; after `1` is inserted, the table (now
`⟨[([true], 7)]⟩`) DOES show a best match for `11`, yet `11` is still
inserted — so "the table shows no existing best match for that prefix at
the time of insertion" fails as stated. -/
theorem C3_counterexample :
    create_table ⟨[]⟩ [([true], "7".data), ([true, true], "8".data)] [] []
      ⟨fun _ => [], fun _ => 1⟩ (fun a : Int => a)
      = some ⟨[([true, true], 8), ([true], 7)]⟩ ∧
    ( IP2AS.search_best_prefix ⟨[([true], 7)]⟩ [true, true]).isSome = true := by
  refine ⟨by decide, by decide⟩

/-- C3 (amended): once a prefix has been recorded in the Lookup Table, it is
never overwritten by a later, lower-priority layer: every binding present
when a layer starts survives, unchanged, to the final table, because each
layer pre-filters out (against the table state at the start of that layer,
not at each individual insertion) every prefix that already resolves to
some entry via best-match lookup. Stated at each layer boundary of
`create_table`. -/
theorem C3_layered_no_overwrite {Org : Type} [DecidableEq Org]
    (table0 : IP2AS) (prefixes : List (Pfx × Str))
    (peeringdb : List (Pfx × Int)) (rir : List (Pfx × Str)) (bgp : BGP)
    (as2org : Int → Org) (T : IP2AS)
    (h : create_table table0 prefixes peeringdb rir bgp as2org = some T) :
    (∀ q b, (q, b) ∈ table0.entries → (q, b) ∈ T.entries) ∧
    (∀ q b, (q, b) ∈ (ixp_layer table0 peeringdb).entries → (q, b) ∈ T.entries) ∧
    (∀ t2, bgp_layer (ixp_layer table0 peeringdb) prefixes as2org bgp = some t2 →
      ∀ q b, (q, b) ∈ t2.entries → (q, b) ∈ T.entries) := by
  rw [create_table] at h
  cases hbl : bgp_layer (ixp_layer table0 peeringdb) prefixes as2org bgp with
  | none => rw [hbl] at h; cases h
  | some t2 =>
    rw [hbl] at h
    simp only [Option.some_bind] at h
    refine ⟨?_, ?_, ?_⟩
    · intro q b hq
      exact rir_layer_preserves h (bgp_layer_preserves hbl (ixp_layer_preserves hq))
    · intro q b hq
      exact rir_layer_preserves h (bgp_layer_preserves hbl hq)
    · intro t2' ht2' q b hq
      cases ht2'
      exact rir_layer_preserves h hq

/-- C3 witness: a concrete run — the exchange-point entry recorded for
prefix `1` survives the routing-table layer's insertion at prefix `0`. -/
theorem C3_witness :
    ([true], (-102 : Int)) ∈
      (IP2AS.entries ⟨[([false], 7), ([true], -102)]⟩) :=
  (C3_layered_no_overwrite ⟨[]⟩ [([false], "7".data)] [([true], 2)] []
    ⟨fun _ => [], fun _ => 1⟩ (fun a : Int => a)
    ⟨[([false], 7), ([true], -102)]⟩ (by decide)).2.1 [true] (-102) (by decide)

/-- C10: within each single layer of the Table Builder the
no-existing-best-match filter is evaluated against the table state at the
start of the layer, before any of the layer's insertions: every pair of the
layer's input whose prefix has no best match in the layer-start table ends
up recorded in the layer's output — even when another pair of the same
layer overlaps it — so the pre-filter only excludes matches created by
earlier layers. -/
theorem C10_batch_filter_per_layer :
    (∀ (t : IP2AS) (X : List (Pfx × Int)) (p : Pfx) (i : Int),
      (p, i) ∈ X → t.search_best_prefix p = none →
      ∃ b, (p, b) ∈ (ixp_layer t X).entries) ∧
    (∀ (Org : Type) (inst : DecidableEq Org) (t : IP2AS)
      (P : List (Pfx × Str)) (as2org : Int → Org) (bgp : BGP) (T : IP2AS)
      (p : Pfx) (s : Str),
      bgp_layer t P as2org bgp = some T →
      (p, s) ∈ P → t.search_best_prefix p = none →
      ∃ b, (p, b) ∈ T.entries) ∧
    (∀ (t : IP2AS) (R : List (Pfx × Str)) (bgp : BGP) (T : IP2AS)
      (p : Pfx) (s : Str),
      rir_layer t R bgp = some T →
      (p, s) ∈ R → t.search_best_prefix p = none →
      ∃ b, (p, b) ∈ T.entries) := by
  refine ⟨?_, ?_, ?_⟩
  · intro t X p i hmem hnone
    exact foldl_add_inserts _ _ (p, i)
      (List.mem_filter.mpr ⟨hmem, by simp [hnone]⟩) _
  · intro Org inst t P as2org bgp T p s hrun hmem hnone
    exact foldlM_add_inserts _ _ (p, s)
      (List.mem_filter.mpr ⟨hmem, by simp [hnone]⟩) _ _ hrun
  · intro t R bgp T p s hrun hmem hnone
    exact foldlM_add_inserts _ _ (p, s)
      (List.mem_filter.mpr ⟨hmem, by simp [hnone]⟩) _ _ hrun

/-- C10 witness: two overlapping prefixes fed to the same (exchange-point)
layer; the covered, longer prefix is still inserted. -/
theorem C10_witness :
    ∃ b, ([true, true], b) ∈
      (ixp_layer ⟨[]⟩ [([true], 1), ([true, true], 2)]).entries :=
  C10_batch_filter_per_layer.1 ⟨[]⟩ [([true], 1), ([true, true], 2)]
    [true, true] 2 (by decide) (by decide)

end Ip2as
